import Mathlib

/-
  Verification of the AethelFS in-memory filesystem engine.

  The definitions below are a shallow embedding of the Go source:
    - the space allocator, statfs accounting and inode counter of
      `Filesystem` (internal/fs, the revision with free-space tracking);
    - the file read / write / truncate path of `File`
      (internal/fs/file.go, the revision that doubles capacity on growth
      and returns old extents to the free list);
    - the directory create / remove operations of `Dir`
      (internal/fs/dir.go).

  Go `int64` / `uint64` quantities are modelled as `Nat`: every value the
  engine computes is non-negative, and on a device bounded by 64 GiB the
  offsets, sizes and inode counts never approach the word size, so wrap
  around is unreachable and is not modelled.  Byte slices of the mapping
  are modelled as `List Nat`.  Fields of `nodeAttr` that the verified
  operations never read (uid, gid, mode, name) are omitted.  Calls to
  `Fsync`, logging, and lock acquisition have no effect on the state the
  claims are about and are elided.
-/

namespace AethelFS

/-- Block alignment size, 4 KiB (internal/common/constants.go). -/
def BlockAlignmentSize : Nat := 4 * 1024

/-- Metadata reservation at the start of the device, 1 MiB
(internal/common/constants.go). -/
def MetadataReservationSize : Nat := 1 * 1024 * 1024

/-- Default initial file allocation size, 64 KiB
(internal/common/constants.go). -/
def DefaultInitialFileSize : Nat := 64 * 1024

/-- A free extent on the allocator's free list (struct `freeSpace`). -/
structure FreeSpace where
  offset : Nat
  size : Nat
deriving Repr, DecidableEq

/-- The allocator-relevant state of the Go `Filesystem` struct:
the inode counter, the watermark `nextOffset`, and the free list. -/
structure Filesystem where
  inodeCount : Nat
  nextOffset : Nat
  freeSpaces : List FreeSpace
deriving Repr, DecidableEq

/-- The state `NewFilesystem` builds: the inode counter starts at 1
(the root inode) and `nextOffset` starts past the metadata reservation,
with an empty free list. -/
def newFilesystem : Filesystem :=
  { inodeCount := 1
    nextOffset := MetadataReservationSize
    freeSpaces := [] }

/-- Rounding a size up to the 4 KiB alignment boundary, as computed by
`allocateSpace` and `freeSpace`:
`((size + BlockAlignmentSize - 1) / BlockAlignmentSize) * BlockAlignmentSize`. -/
def alignUp (size : Nat) : Nat :=
  ((size + BlockAlignmentSize - 1) / BlockAlignmentSize) * BlockAlignmentSize

/-- The first-fit scan of `allocateSpace` over the free list: the first
extent with `size ≥ aligned` is chosen; it is shrunk from the front by
`aligned` bytes, or removed when its size equals `aligned`.  Returns the
chosen offset and the updated free list, or `none` when no extent fits. -/
def allocScan (aligned : Nat) : List FreeSpace → Option (Nat × List FreeSpace)
  | [] => none
  | sp :: rest =>
    if aligned ≤ sp.size then
      if aligned < sp.size then
        some (sp.offset, { offset := sp.offset + aligned, size := sp.size - aligned } :: rest)
      else
        some (sp.offset, rest)
    else
      match allocScan aligned rest with
      | some (o, rest2) => some (o, sp :: rest2)
      | none => none

/-- `Filesystem.allocateSpace`: round the request up to the alignment
boundary, try first fit over the free list, and otherwise hand out
`[nextOffset, nextOffset + aligned)` and advance the watermark. -/
def allocateSpace (fs : Filesystem) (size : Nat) : Nat × Filesystem :=
  let alignedSize := alignUp size
  match allocScan alignedSize fs.freeSpaces with
  | some (o, newFree) => (o, { fs with freeSpaces := newFree })
  | none => (fs.nextOffset, { fs with nextOffset := fs.nextOffset + alignedSize })

/-- `Filesystem.freeSpace`: a no-op for an empty extent, otherwise the
extent is appended to the free list with its size rounded up to the
alignment boundary. -/
def freeSpace (fs : Filesystem) (offset size : Nat) : Filesystem :=
  if size = 0 then fs
  else { fs with freeSpaces := fs.freeSpaces ++ [{ offset := offset, size := alignUp size }] }

/-- `Filesystem.nextInode`: increment the inode counter and return it. -/
def nextInode (fs : Filesystem) : Nat × Filesystem :=
  (fs.inodeCount + 1, { fs with inodeCount := fs.inodeCount + 1 })

section AlignLemmas

theorem alignUp_mod (size : Nat) : alignUp size % BlockAlignmentSize = 0 := by
  simp [alignUp, Nat.mul_mod_left]

theorem le_alignUp (size : Nat) : size ≤ alignUp size := by
  unfold alignUp BlockAlignmentSize
  have h1 := Nat.div_add_mod (size + 4 * 1024 - 1) (4 * 1024)
  have h2 : (size + 4 * 1024 - 1) % (4 * 1024) < 4 * 1024 := Nat.mod_lt _ (by omega)
  omega

theorem alignUp_lt (size : Nat) : alignUp size < size + BlockAlignmentSize := by
  unfold alignUp BlockAlignmentSize
  have h1 := Nat.div_add_mod (size + 4 * 1024 - 1) (4 * 1024)
  have h2 : (size + 4 * 1024 - 1) % (4 * 1024) < 4 * 1024 := Nat.mod_lt _ (by omega)
  omega

end AlignLemmas

section AllocScanLemmas

theorem allocScan_none (a : Nat) (l : List FreeSpace)
    (h : ∀ sp ∈ l, sp.size < a) : allocScan a l = none := by
  induction l with
  | nil => rfl
  | cons sp rest ih =>
    have hsp : sp.size < a := h sp (List.mem_cons_self sp rest)
    have hrest : allocScan a rest = none :=
      ih (fun q hq => h q (List.mem_cons_of_mem sp hq))
    simp [allocScan, Nat.not_le.mpr hsp, hrest]

theorem allocScan_found (a : Nat) (pre : List FreeSpace) (sp : FreeSpace)
    (post : List FreeSpace) (hpre : ∀ q ∈ pre, q.size < a) (hsp : a ≤ sp.size) :
    allocScan a (pre ++ sp :: post) =
      some (sp.offset,
        pre ++ if a < sp.size
               then { offset := sp.offset + a, size := sp.size - a } :: post
               else post) := by
  induction pre with
  | nil =>
    by_cases hlt : a < sp.size
    · simp [allocScan, hsp, hlt]
    · simp [allocScan, hsp, hlt]
  | cons q rest ih =>
    have hq : q.size < a := hpre q (List.mem_cons_self q rest)
    have hrest := ih (fun r hr => hpre r (List.mem_cons_of_mem q hr))
    simp [allocScan, Nat.not_le.mpr hq, hrest]

end AllocScanLemmas

/-- C4: `allocateSpace` rounds the request up to a 4096-byte multiple
`aligned` (the least multiple that is at least `requested`), scans the
free list in insertion order taking the first extent of size at least
`aligned` — returning its offset and shrinking it from the front, or
removing it when its size equals `aligned` — and, when no free extent
fits, returns the watermark `nextOffset` and advances it by `aligned`. -/
theorem allocateSpace_spec (fs : Filesystem) (requested : Nat) :
    alignUp requested % BlockAlignmentSize = 0 ∧
    requested ≤ alignUp requested ∧
    alignUp requested < requested + BlockAlignmentSize ∧
    ((∀ sp ∈ fs.freeSpaces, sp.size < alignUp requested) →
      allocateSpace fs requested =
        (fs.nextOffset,
          { inodeCount := fs.inodeCount
            nextOffset := fs.nextOffset + alignUp requested
            freeSpaces := fs.freeSpaces })) ∧
    (∀ pre sp post, fs.freeSpaces = pre ++ sp :: post →
      (∀ q ∈ pre, q.size < alignUp requested) → alignUp requested ≤ sp.size →
      allocateSpace fs requested =
        (sp.offset,
          { inodeCount := fs.inodeCount
            nextOffset := fs.nextOffset
            freeSpaces :=
              pre ++ if alignUp requested < sp.size
                     then { offset := sp.offset + alignUp requested,
                            size := sp.size - alignUp requested } :: post
                     else post })) := by
  refine ⟨alignUp_mod requested, le_alignUp requested, alignUp_lt requested, ?_, ?_⟩
  · intro hnone
    have h := allocScan_none (alignUp requested) fs.freeSpaces hnone
    simp [allocateSpace, h]
  · intro pre sp post heq hpre hsp
    have h := allocScan_found (alignUp requested) pre sp post hpre hsp
    simp [allocateSpace, heq, h]

/-- Witness for C4 at a concrete state: a one-extent free list where the
extent fits exactly, so it is removed and its offset returned. -/
theorem allocateSpace_spec_witness :
    allocateSpace { inodeCount := 1, nextOffset := 8192,
                    freeSpaces := [{ offset := 4096, size := 4096 }] } 100 =
      (4096, { inodeCount := 1, nextOffset := 8192, freeSpaces := [] }) := by
  have h := (allocateSpace_spec
      { inodeCount := 1, nextOffset := 8192,
        freeSpaces := [{ offset := 4096, size := 4096 }] } 100).2.2.2.2
      [] { offset := 4096, size := 4096 } [] rfl (by decide) (by decide)
  simpa using h

/-- The used/free byte quantities computed by `Filesystem.Statfs` before
they are converted to block counts: `usedOffset` is `nextOffset` raised to
at least the metadata reservation, used space is `usedOffset` minus the
reservation, and free space is total minus used, floored at zero. -/
structure StatfsBytes where
  usedSpace : Nat
  freeSpace : Nat
deriving Repr, DecidableEq

/-- The byte accounting of `Filesystem.Statfs` (src/unnamed/part_000,
lines 199–221), with `totalSize` the length of the mapped device. -/
def statfsBytes (fs : Filesystem) (totalSize : Nat) : StatfsBytes :=
  let usedOffset :=
    if fs.nextOffset < MetadataReservationSize then MetadataReservationSize else fs.nextOffset
  let usedSpace := usedOffset - MetadataReservationSize
  let freeSpace := if usedSpace < totalSize then totalSize - usedSpace else 0
  { usedSpace := usedSpace, freeSpace := freeSpace }

/-- The sum of the free-list extent sizes. -/
def freeListTotal (fs : Filesystem) : Nat :=
  (fs.freeSpaces.map FreeSpace.size).sum

/-- Statfs accounting as the claim states it (used bytes subtract the
free-list lengths); `Nat` subtraction provides the claimed clamping to
non-negative values.  Stated for comparison with `statfsBytes`. -/
def statfsBytesClaim (fs : Filesystem) (totalSize : Nat) : StatfsBytes :=
  let usedSpace := fs.nextOffset - MetadataReservationSize - freeListTotal fs
  { usedSpace := usedSpace, freeSpace := totalSize - usedSpace }

/-- C5 counterexample: with the watermark 8192 bytes past the reservation
and one 4096-byte extent on the free list, the code reports 8192 used
bytes; the claimed accounting (which subtracts the free-list lengths)
would report 4096. -/
theorem statfsBytes_counterexample :
    (statfsBytes
        { inodeCount := 1, nextOffset := MetadataReservationSize + 8192,
          freeSpaces := [{ offset := MetadataReservationSize, size := 4096 }] }
        16777216).usedSpace = 8192 ∧
    (statfsBytesClaim
        { inodeCount := 1, nextOffset := MetadataReservationSize + 8192,
          freeSpaces := [{ offset := MetadataReservationSize, size := 4096 }] }
        16777216).usedSpace = 4096 := by
  constructor <;> rfl

/-- C5 amended: statfs reports used bytes equal to `nextOffset` minus the
1 MiB metadata reservation and free bytes equal to total minus used, both
clamped to be non-negative; the free-list extent lengths are not
subtracted. -/
theorem statfsBytes_amended (fs : Filesystem) (totalSize : Nat) :
    (statfsBytes fs totalSize).usedSpace = fs.nextOffset - MetadataReservationSize ∧
    (statfsBytes fs totalSize).freeSpace =
      totalSize - (fs.nextOffset - MetadataReservationSize) := by
  unfold statfsBytes
  dsimp only
  constructor <;> (split_ifs <;> omega)

/-- The filesystem state after `k` calls to `nextInode`, starting from
the state `NewFilesystem` builds (inode counter 1, root inode). -/
def inodeAfterCalls : Nat → Filesystem
  | 0 => newFilesystem
  | k + 1 => (nextInode (inodeAfterCalls k)).2

/-- The inode number returned by the `(k+1)`-th call to `nextInode`. -/
def inodeReturnAt (k : Nat) : Nat :=
  (nextInode (inodeAfterCalls k)).1

/-- The root directory's inode number, fixed to 1 by `NewFilesystem`. -/
def rootInode : Nat := 1

theorem inodeAfterCalls_count (k : Nat) : (inodeAfterCalls k).inodeCount = k + 1 := by
  induction k with
  | zero => rfl
  | succ k ih => simp [inodeAfterCalls, nextInode, ih]

theorem inodeReturnAt_eq (k : Nat) : inodeReturnAt k = k + 2 := by
  simp [inodeReturnAt, nextInode, inodeAfterCalls_count]

/-- C10: successive calls to `nextInode`, starting from the counter value
1 set by `NewFilesystem`, return strictly increasing inode numbers, each
strictly greater than the root directory's inode 1. -/
theorem nextInode_monotone :
    (∀ j k, j < k → inodeReturnAt j < inodeReturnAt k) ∧
    (∀ k, rootInode < inodeReturnAt k) := by
  constructor
  · intro j k hjk
    simp [inodeReturnAt_eq]
    omega
  · intro k
    simp [inodeReturnAt_eq, rootInode]

/-- Witness for C10: the first two calls return 2 and 3. -/
theorem nextInode_monotone_witness :
    inodeReturnAt 0 = 2 ∧ inodeReturnAt 1 = 3 ∧ inodeReturnAt 0 < inodeReturnAt 1 ∧
    rootInode < inodeReturnAt 0 :=
  ⟨by decide, by decide, nextInode_monotone.1 0 1 (by decide), nextInode_monotone.2 0⟩

/-- A file node: the backing slice of the mapping (`data`, whose length
is the file's capacity), the extent's byte offset in the mapping, the
logical size, and the modification time (modelled as a plain counter). -/
structure File where
  data : List Nat
  offset : Nat
  size : Nat
  modTime : Nat
deriving Repr, DecidableEq

/-- Go `copy(dst[pos:], src)` on list values: the bytes of `src` that fit
overwrite `dst` starting at `pos`; the rest of `dst` is unchanged and the
length of `dst` is preserved.  Faithful for `pos ≤ dst.length` (beyond
that the Go slice expression panics). -/
def listCopyAt (dst : List Nat) (pos : Nat) (src : List Nat) : List Nat :=
  dst.take pos ++ src.take (dst.length - pos) ++ dst.drop (pos + src.length)

section ListCopyAtLemmas

theorem listCopyAt_length (dst src : List Nat) (pos : Nat) (hp : pos ≤ dst.length) :
    (listCopyAt dst pos src).length = dst.length := by
  simp [listCopyAt]
  omega

theorem listCopyAt_getElem_copied (dst src : List Nat) (pos i : Nat)
    (hi : i < src.length) (hlt : pos + i < dst.length) :
    (listCopyAt dst pos src)[pos + i]? = src[i]? := by
  unfold listCopyAt
  rw [List.append_assoc,
    List.getElem?_append_right (by simp only [List.length_take]; omega)]
  have hidx : pos + i - (dst.take pos).length = i := by
    simp only [List.length_take]
    omega
  rw [hidx, List.getElem?_append_left (by simp only [List.length_take]; omega)]
  exact List.getElem?_take_of_lt (by omega)

theorem listCopyAt_getElem_left (dst src : List Nat) (pos i : Nat)
    (hi : i < pos) (hp : pos ≤ dst.length) :
    (listCopyAt dst pos src)[i]? = dst[i]? := by
  unfold listCopyAt
  rw [List.append_assoc, List.getElem?_append_left (by simp; omega)]
  exact List.getElem?_take_of_lt hi

theorem listCopyAt_getElem_right (dst src : List Nat) (pos i : Nat)
    (hi : pos + src.length ≤ i) (hp : pos ≤ dst.length) :
    (listCopyAt dst pos src)[i]? = dst[i]? := by
  unfold listCopyAt
  by_cases hfit : src.length ≤ dst.length - pos
  · rw [List.append_assoc, List.getElem?_append_right (by simp; omega)]
    rw [List.getElem?_append_right (by simp; omega)]
    rw [List.getElem?_drop]
    have hidx : pos + src.length +
        (i - (dst.take pos).length - (src.take (dst.length - pos)).length) = i := by
      simp
      omega
    rw [hidx]
  · have hnone1 : (dst.take pos ++ src.take (dst.length - pos) ++
        dst.drop (pos + src.length))[i]? = none := by
      apply List.getElem?_eq_none
      simp
      omega
    have hnone2 : dst[i]? = none := by
      apply List.getElem?_eq_none
      omega
    rw [hnone1, hnone2]

end ListCopyAtLemmas

/-- `File.Read` (src/internal/fs/file.go, lines 219–241): a read at or
past the logical size returns the empty result; otherwise the bytes
`[reqOffset, min(reqOffset + reqSize, size))` are copied out of the
file's slice of the mapping. -/
def fileRead (f : File) (reqOffset reqSize : Nat) : List Nat :=
  if f.size ≤ reqOffset then []
  else
    let e := if f.size < reqOffset + reqSize then f.size else reqOffset + reqSize
    (f.data.drop reqOffset).take (e - reqOffset)

/-- C2: reading `(reqOffset, reqSize)` from a file whose logical size is
within its capacity returns the empty result when `reqOffset ≥ size`, and
otherwise returns exactly the bytes of the file at positions
`[reqOffset, min(reqOffset + reqSize, size))` — never any byte at or past
the logical size. -/
theorem fileRead_spec (f : File) (reqOffset reqSize : Nat)
    (hinv : f.size ≤ f.data.length) :
    (f.size ≤ reqOffset → fileRead f reqOffset reqSize = []) ∧
    (reqOffset < f.size →
      (fileRead f reqOffset reqSize).length =
        min (reqOffset + reqSize) f.size - reqOffset ∧
      ∀ i, i < min (reqOffset + reqSize) f.size - reqOffset →
        (fileRead f reqOffset reqSize)[i]? = f.data[reqOffset + i]?) := by
  constructor
  · intro hle
    simp [fileRead, hle]
  · intro hlt
    have hnle : ¬ f.size ≤ reqOffset := Nat.not_le.mpr hlt
    constructor
    · simp only [fileRead, if_neg hnle, List.length_take, List.length_drop]
      split_ifs <;> omega
    · intro i hi
      simp only [fileRead, if_neg hnle]
      have hib : i < (if f.size < reqOffset + reqSize then f.size
          else reqOffset + reqSize) - reqOffset := by
        split_ifs <;> omega
      rw [List.getElem?_take_of_lt hib, List.getElem?_drop]

/-- Witness for C2: reading 5 bytes at offset 1 of a file with logical
size 2 and capacity 3 yields the single byte at position 1. -/
theorem fileRead_spec_witness :
    fileRead { data := [3, 4, 5], offset := 0, size := 2, modTime := 0 } 1 5 = [4] ∧
    (fileRead { data := [3, 4, 5], offset := 0, size := 2, modTime := 0 } 1 5).length = 1 ∧
    (fileRead { data := [3, 4, 5], offset := 0, size := 2, modTime := 0 } 1 5)[0]? =
      some 4 := by
  have h := (fileRead_spec { data := [3, 4, 5], offset := 0, size := 2, modTime := 0 }
      1 5 (by decide)).2 (by decide)
  refine ⟨by decide, ?_, ?_⟩
  · simpa using h.1
  · have h0 := h.2 0 (by decide)
    simpa using h0

/-- `File.Write` (src/internal/fs/file.go, lines 244–295).  `dax` is the
mapped device.  When the request does not fit in the backing slice, the
capacity is doubled (or raised to the request, whichever is larger), a
fresh extent is allocated, the logical content is copied across, and the
old extent is returned to the free list; then the request data is copied
in at the offset, the size and modification time are updated, and the
length of the input is returned. -/
def fileWrite (dax : List Nat) (fs : Filesystem) (f : File) (now reqOffset : Nat)
    (reqData : List Nat) : File × Filesystem × Nat :=
  let newSize := reqOffset + reqData.length
  let grown : File × Filesystem :=
    if f.data.length < newSize then
      let newCapacity := if f.data.length * 2 < newSize then newSize else f.data.length * 2
      let newOffset := (allocateSpace fs newCapacity).1
      let fsA := (allocateSpace fs newCapacity).2
      let newData := listCopyAt ((dax.drop newOffset).take newCapacity) 0 (f.data.take f.size)
      let fsB := if 0 < f.data.length then freeSpace fsA f.offset f.data.length else fsA
      ({ data := newData, offset := newOffset, size := f.size, modTime := f.modTime }, fsB)
    else (f, fs)
  let data2 := listCopyAt grown.1.data reqOffset reqData
  let size2 := if grown.1.size < newSize then newSize else grown.1.size
  ({ data := data2, offset := grown.1.offset, size := size2, modTime := now }, grown.2,
    reqData.length)

/-- The truncate path of `File.Setattr` (src/internal/fs/file.go, lines
321–348): when the new size exceeds the capacity, a fresh extent of
exactly the new size is allocated, the logical content copied across, and
the old extent freed; in every case the logical size becomes `newSize`. -/
def fileSetattrSize (dax : List Nat) (fs : Filesystem) (f : File) (newSize : Nat) :
    File × Filesystem :=
  let grown : File × Filesystem :=
    if f.data.length < newSize then
      let newOffset := (allocateSpace fs newSize).1
      let fsA := (allocateSpace fs newSize).2
      let newData := listCopyAt ((dax.drop newOffset).take newSize) 0 (f.data.take f.size)
      let fsB := freeSpace fsA f.offset f.data.length
      ({ data := newData, offset := newOffset, size := f.size, modTime := f.modTime }, fsB)
    else (f, fs)
  ({ data := grown.1.data, offset := grown.1.offset, size := newSize,
     modTime := grown.1.modTime }, grown.2)

theorem freeSpace_zero (fs : Filesystem) (offset : Nat) : freeSpace fs offset 0 = fs := by
  simp [freeSpace]

/-- C1: a write of `reqData` at `reqOffset` that exceeds the current
capacity picks the new capacity `max(new_size, 2·capacity)`, allocates a
fresh extent of that length, swaps the file's offset to the allocated
one, frees the old extent, copies the logical content `[0, size)` across
(outside the written range), writes `reqData` at `reqOffset`, sets the
size to `max(size, new_size)`, and returns the length of the input. -/
theorem fileWrite_grow_spec (dax : List Nat) (fs : Filesystem) (f : File)
    (now reqOffset : Nat) (reqData : List Nat)
    (hgrow : f.data.length < reqOffset + reqData.length)
    (hinv : f.size ≤ f.data.length)
    (hdax : (allocateSpace fs (max (reqOffset + reqData.length) (2 * f.data.length))).1 +
        max (reqOffset + reqData.length) (2 * f.data.length) ≤ dax.length) :
    (fileWrite dax fs f now reqOffset reqData).2.2 = reqData.length ∧
    (fileWrite dax fs f now reqOffset reqData).1.offset =
      (allocateSpace fs (max (reqOffset + reqData.length) (2 * f.data.length))).1 ∧
    (fileWrite dax fs f now reqOffset reqData).1.data.length =
      max (reqOffset + reqData.length) (2 * f.data.length) ∧
    (fileWrite dax fs f now reqOffset reqData).1.size =
      max f.size (reqOffset + reqData.length) ∧
    (fileWrite dax fs f now reqOffset reqData).2.1 =
      freeSpace (allocateSpace fs (max (reqOffset + reqData.length)
        (2 * f.data.length))).2 f.offset f.data.length ∧
    (∀ i, i < reqData.length →
      (fileWrite dax fs f now reqOffset reqData).1.data[reqOffset + i]? = reqData[i]?) ∧
    (∀ i, i < f.size → (i < reqOffset ∨ reqOffset + reqData.length ≤ i) →
      (fileWrite dax fs f now reqOffset reqData).1.data[i]? = f.data[i]?) := by
  have hnc : (if f.data.length * 2 < reqOffset + reqData.length
      then reqOffset + reqData.length else f.data.length * 2)
      = max (reqOffset + reqData.length) (2 * f.data.length) := by
    split_ifs <;> omega
  have hsz : f.size < reqOffset + reqData.length := by omega
  have key : fileWrite dax fs f now reqOffset reqData =
      ({ data := listCopyAt
            (listCopyAt
              ((dax.drop ((allocateSpace fs (max (reqOffset + reqData.length)
                  (2 * f.data.length))).1)).take
                (max (reqOffset + reqData.length) (2 * f.data.length)))
              0 (f.data.take f.size))
            reqOffset reqData,
         offset := (allocateSpace fs (max (reqOffset + reqData.length)
            (2 * f.data.length))).1,
         size := reqOffset + reqData.length,
         modTime := now },
       freeSpace (allocateSpace fs (max (reqOffset + reqData.length)
          (2 * f.data.length))).2 f.offset f.data.length,
       reqData.length) := by
    simp only [fileWrite]
    rw [if_pos hgrow]
    dsimp only
    rw [hnc, if_pos hsz]
    by_cases h0 : 0 < f.data.length
    · rw [if_pos h0]
    · rw [if_neg h0]
      have hz : f.data.length = 0 := by omega
      rw [hz, freeSpace_zero]
  have hbase : ((dax.drop ((allocateSpace fs (max (reqOffset + reqData.length)
      (2 * f.data.length))).1)).take
        (max (reqOffset + reqData.length) (2 * f.data.length))).length =
      max (reqOffset + reqData.length) (2 * f.data.length) := by
    rw [List.length_take, List.length_drop]
    omega
  have hinner : (listCopyAt
      ((dax.drop ((allocateSpace fs (max (reqOffset + reqData.length)
          (2 * f.data.length))).1)).take
        (max (reqOffset + reqData.length) (2 * f.data.length)))
      0 (f.data.take f.size)).length =
      max (reqOffset + reqData.length) (2 * f.data.length) := by
    rw [listCopyAt_length _ _ _ (Nat.zero_le _), hbase]
  refine ⟨by rw [key], by rw [key], ?_, ?_, by rw [key], ?_, ?_⟩
  · rw [key]
    show (listCopyAt _ reqOffset reqData).length = _
    rw [listCopyAt_length _ _ _ (by rw [hinner]; omega), hinner]
  · rw [key]
    show reqOffset + reqData.length = max f.size (reqOffset + reqData.length)
    omega
  · intro i hi
    rw [key]
    show (listCopyAt _ reqOffset reqData)[reqOffset + i]? = reqData[i]?
    exact listCopyAt_getElem_copied _ reqData reqOffset i hi (by rw [hinner]; omega)
  · intro i hif hrange
    have hcp := listCopyAt_getElem_copied
      ((dax.drop ((allocateSpace fs (max (reqOffset + reqData.length)
          (2 * f.data.length))).1)).take
        (max (reqOffset + reqData.length) (2 * f.data.length)))
      (f.data.take f.size) 0 i
      (by rw [List.length_take]; omega)
      (by rw [hbase]; omega)
    rw [Nat.zero_add] at hcp
    rw [key]
    rcases hrange with hlt | hge
    · rw [listCopyAt_getElem_left
          (listCopyAt
            ((dax.drop ((allocateSpace fs (max (reqOffset + reqData.length)
                (2 * f.data.length))).1)).take
              (max (reqOffset + reqData.length) (2 * f.data.length)))
            0 (f.data.take f.size))
          reqData reqOffset i hlt (by rw [hinner]; omega), hcp]
      exact List.getElem?_take_of_lt hif
    · rw [listCopyAt_getElem_right
          (listCopyAt
            ((dax.drop ((allocateSpace fs (max (reqOffset + reqData.length)
                (2 * f.data.length))).1)).take
              (max (reqOffset + reqData.length) (2 * f.data.length)))
            0 (f.data.take f.size))
          reqData reqOffset i hge (by rw [hinner]; omega), hcp]
      exact List.getElem?_take_of_lt hif

/-- Witness for C1 at a concrete input: a file of capacity 2 and size 2,
written with 3 bytes at offset 1; the allocation comes from a 4 KiB free
extent at offset 0, so the fresh extent is `[0, 4)` of the 4-byte device. -/
theorem fileWrite_grow_spec_witness :
    (fileWrite [0, 0, 0, 0] ⟨1, 0, [⟨0, 4096⟩]⟩
      ⟨[7, 8], 5, 2, 0⟩ 9 1 [11, 12, 13]).2.2 = 3 ∧
    (fileWrite [0, 0, 0, 0] ⟨1, 0, [⟨0, 4096⟩]⟩
      ⟨[7, 8], 5, 2, 0⟩ 9 1 [11, 12, 13]).1.data[0]? = some 7 :=
  have h := fileWrite_grow_spec [0, 0, 0, 0] ⟨1, 0, [⟨0, 4096⟩]⟩
    ⟨[7, 8], 5, 2, 0⟩ 9 1 [11, 12, 13]
    (by decide) (by decide) (by decide)
  ⟨h.1, by
    have h7 := h.2.2.2.2.2.2 0 (by decide) (Or.inl (by decide))
    simpa using h7⟩

/-- C3 counterexample: truncating a file of capacity 2 to size 3 allocates
an extent of exactly 3 bytes, not `max(3, 2·2) = 4` as the claim (grow
exactly as in Write) would require. -/
theorem fileSetattrSize_counterexample :
    (fileSetattrSize [0, 0, 0] ⟨1, 0, [⟨0, 4096⟩]⟩
      ⟨[7, 8], 5, 0, 0⟩ 3).1.data.length = 3 ∧
    (3 : Nat) ≠ max 3 (2 * 2) := by
  constructor
  · rfl
  · decide

/-- C3 amended: `Setattr` with a size change always sets the logical size
to `newSize`; when `newSize` exceeds the capacity it allocates a fresh
extent of exactly `newSize` bytes (not `max(newSize, 2·capacity)`), swaps
the file's offset to it, copies the logical content `[0, size)` across,
and frees the old extent. -/
theorem fileSetattrSize_spec (dax : List Nat) (fs : Filesystem) (f : File)
    (newSize : Nat) :
    (fileSetattrSize dax fs f newSize).1.size = newSize ∧
    (f.data.length < newSize → f.size ≤ f.data.length →
      (allocateSpace fs newSize).1 + newSize ≤ dax.length →
      (fileSetattrSize dax fs f newSize).1.offset = (allocateSpace fs newSize).1 ∧
      (fileSetattrSize dax fs f newSize).1.data.length = newSize ∧
      (fileSetattrSize dax fs f newSize).2 =
        freeSpace (allocateSpace fs newSize).2 f.offset f.data.length ∧
      ∀ i, i < f.size → (fileSetattrSize dax fs f newSize).1.data[i]? = f.data[i]?) := by
  constructor
  · rfl
  · intro hgrow hinv hdax
    have key : fileSetattrSize dax fs f newSize =
        ({ data := listCopyAt ((dax.drop ((allocateSpace fs newSize).1)).take newSize)
              0 (f.data.take f.size),
           offset := (allocateSpace fs newSize).1,
           size := newSize,
           modTime := f.modTime },
         freeSpace (allocateSpace fs newSize).2 f.offset f.data.length) := by
      simp only [fileSetattrSize]
      rw [if_pos hgrow]
    have hbase : ((dax.drop ((allocateSpace fs newSize).1)).take newSize).length
        = newSize := by
      rw [List.length_take, List.length_drop]
      omega
    refine ⟨by rw [key], ?_, by rw [key], ?_⟩
    · rw [key]
      show (listCopyAt _ 0 (f.data.take f.size)).length = newSize
      rw [listCopyAt_length _ _ _ (Nat.zero_le _), hbase]
    · intro i hif
      rw [key]
      show (listCopyAt _ 0 (f.data.take f.size))[i]? = f.data[i]?
      have hcp := listCopyAt_getElem_copied
        ((dax.drop ((allocateSpace fs newSize).1)).take newSize)
        (f.data.take f.size) 0 i
        (by rw [List.length_take]; omega)
        (by rw [hbase]; omega)
      rw [Nat.zero_add] at hcp
      rw [hcp]
      exact List.getElem?_take_of_lt hif

/-- Witness for the amended C3 at a concrete input: truncating a file of
capacity 2 and size 1 to size 3, with the allocation served by a free
extent at offset 0 of a 3-byte device. -/
theorem fileSetattrSize_spec_witness :
    (fileSetattrSize [0, 0, 0] ⟨1, 0, [⟨0, 4096⟩]⟩ ⟨[7, 8], 5, 1, 0⟩ 3).1.size = 3 ∧
    (fileSetattrSize [0, 0, 0] ⟨1, 0, [⟨0, 4096⟩]⟩ ⟨[7, 8], 5, 1, 0⟩ 3).1.data[0]? =
      some 7 :=
  have h := fileSetattrSize_spec [0, 0, 0] ⟨1, 0, [⟨0, 4096⟩]⟩ ⟨[7, 8], 5, 1, 0⟩ 3
  ⟨h.1, by
    have h7 := (h.2 (by decide) (by decide) (by decide)).2.2.2 0 (by decide)
    simpa using h7⟩

/-- POSIX error codes returned by the directory operations. -/
inductive Errno where
  | eNOENT
  | eEXIST
  | eINVAL
  | eISDIR
deriving Repr, DecidableEq

/-- A child node as seen from its parent directory: a file with its
inode, extent offset, capacity and logical size, or a subdirectory with
its inode and its own children. -/
inductive Node where
  | file (inode offset capacity size : Nat)
  | dir (inode : Nat) (children : List (String × Node))

/-- A directory's mutable state: the `children` map (Go `map[string]Node`,
modelled as an association list with unique keys) and the modification
time. -/
structure Dir where
  children : List (String × Node)
  modTime : Nat

/-- Lookup in the children map. -/
def assocGet : List (String × Node) → String → Option Node
  | [], _ => none
  | (k0, v) :: rest, k => if k0 = k then some v else assocGet rest k

/-- Insertion into the children map (`d.children[name] = child`): replaces
the binding when the key is present, appends otherwise. -/
def assocSet : List (String × Node) → String → Node → List (String × Node)
  | [], k, v => [(k, v)]
  | (k0, v0) :: rest, k, v =>
    if k0 = k then (k, v) :: rest else (k0, v0) :: assocSet rest k v

/-- Deletion from the children map (Go `delete`). -/
def assocDel : List (String × Node) → String → List (String × Node)
  | [], _ => []
  | (k0, v0) :: rest, k =>
    if k0 = k then assocDel rest k else (k0, v0) :: assocDel rest k

section AssocLemmas

theorem assocGet_set_self (l : List (String × Node)) (k : String) (v : Node) :
    assocGet (assocSet l k v) k = some v := by
  induction l with
  | nil => simp [assocSet, assocGet]
  | cons p rest ih =>
    by_cases h : p.1 = k
    · simp [assocSet, h, assocGet]
    · simp [assocSet, h, assocGet, ih]

theorem assocGet_set_other (l : List (String × Node)) (k k2 : String) (v : Node)
    (h : k2 ≠ k) : assocGet (assocSet l k v) k2 = assocGet l k2 := by
  have hne : ¬ k = k2 := fun hk => h hk.symm
  induction l with
  | nil => simp [assocSet, assocGet, hne]
  | cons p rest ih =>
    by_cases hp : p.1 = k
    · subst hp
      simp [assocSet, assocGet, hne]
    · simp [assocSet, hp, assocGet, ih]

theorem assocGet_del_self (l : List (String × Node)) (k : String) :
    assocGet (assocDel l k) k = none := by
  induction l with
  | nil => simp [assocDel, assocGet]
  | cons p rest ih =>
    by_cases hp : p.1 = k
    · simp [assocDel, hp, ih]
    · simp [assocDel, hp, assocGet, ih]

theorem assocGet_del_other (l : List (String × Node)) (k k2 : String)
    (h : k2 ≠ k) : assocGet (assocDel l k) k2 = assocGet l k2 := by
  have hne : ¬ k = k2 := fun hk => h hk.symm
  induction l with
  | nil => simp [assocDel]
  | cons p rest ih =>
    by_cases hp : p.1 = k
    · subst hp
      simp [assocDel, assocGet, hne, ih]
    · simp [assocDel, hp, assocGet, ih]

end AssocLemmas

theorem allocateSpace_inodeCount (fs : Filesystem) (s : Nat) :
    (allocateSpace fs s).2.inodeCount = fs.inodeCount := by
  unfold allocateSpace
  cases h : allocScan (alignUp s) fs.freeSpaces with
  | none => simp [h]
  | some p =>
    obtain ⟨o, nf⟩ := p
    simp [h]

/-- `Dir.Create` (src/internal/fs/dir.go, lines 89–109) together with the
`Filesystem.CreateFile` call it makes: allocate a default-sized extent,
draw an inode in `CreateFile`, draw a second inode that `Create` then
stores on the node, insert the fresh empty file into the children map
(silently replacing any existing binding), and update the directory's
modification time.  The source performs no existence or name-validity
check and cannot fail. -/
def dirCreate (d : Dir) (fs : Filesystem) (now : Nat) (name : String) :
    Dir × Filesystem :=
  let off := (allocateSpace fs DefaultInitialFileSize).1
  let fs1 := (allocateSpace fs DefaultInitialFileSize).2
  let fs2 := (nextInode fs1).2
  let ino := (nextInode fs2).1
  let fs3 := (nextInode fs2).2
  ({ children := assocSet d.children name (Node.file ino off DefaultInitialFileSize 0),
     modTime := now }, fs3)

/-- `Dir.Remove` (src/internal/fs/dir.go, lines 112–122): ENOENT when the
name is absent; otherwise the entry — file or directory alike — is
removed and the modification time updated.  The source never checks the
node's kind and never calls `freeSpace`. -/
def dirRemove (d : Dir) (now : Nat) (name : String) : Except Errno Dir :=
  match assocGet d.children name with
  | none => Except.error Errno.eNOENT
  | some _ => Except.ok { children := assocDel d.children name, modTime := now }

/-- Name validity as the claim states it: a name is invalid when it is
empty or contains a slash or a NUL byte. -/
def nameInvalid (name : String) : Bool :=
  name.data.isEmpty || name.data.contains (Char.ofNat 47) || name.data.contains (Char.ofNat 0)

/-- Create as the claim describes it (modelled from the claim's words,
for comparison with `dirCreate`): EEXIST when the name is present,
EINVAL when the name is invalid, and only otherwise the insertion. -/
def dirCreateClaim (d : Dir) (fs : Filesystem) (now : Nat) (name : String) :
    Except Errno (Dir × Filesystem) :=
  if (assocGet d.children name).isSome then Except.error Errno.eEXIST
  else if nameInvalid name then Except.error Errno.eINVAL
  else Except.ok (dirCreate d fs now name)

/-- C6 counterexample: creating `"a"` in a directory that already has a
child `"a"` must fail with EEXIST per the claim, but the code replaces
the existing child with a fresh empty file; creating the invalid name
`"a/b"` must fail with EINVAL per the claim, but the code inserts it. -/
theorem dirCreate_counterexample :
    dirCreateClaim ⟨[("a", Node.file 7 9999 4096 5)], 0⟩ ⟨1, 0, [⟨0, 65536⟩]⟩ 77 "a" =
      Except.error Errno.eEXIST ∧
    (dirCreate ⟨[("a", Node.file 7 9999 4096 5)], 0⟩ ⟨1, 0, [⟨0, 65536⟩]⟩ 77 "a").1.children =
      [("a", Node.file 3 0 65536 0)] ∧
    dirCreateClaim ⟨[], 0⟩ ⟨1, 0, [⟨0, 65536⟩]⟩ 77 "a/b" =
      Except.error Errno.eINVAL ∧
    (dirCreate ⟨[], 0⟩ ⟨1, 0, [⟨0, 65536⟩]⟩ 77 "a/b").1.children =
      [("a/b", Node.file 3 0 65536 0)] := by
  refine ⟨rfl, rfl, rfl, rfl⟩

/-- C6 amended: `Create` performs no existence or name-validity check and
never fails: for every parent, name and state it allocates a 64 KiB
extent, inserts a fresh empty file node under the name — replacing any
existing entry and leaving all other entries unchanged — and updates the
parent's modification time. -/
theorem dirCreate_spec (d : Dir) (fs : Filesystem) (now : Nat) (name : String) :
    (dirCreate d fs now name).1.modTime = now ∧
    assocGet (dirCreate d fs now name).1.children name =
      some (Node.file (fs.inodeCount + 2)
        (allocateSpace fs DefaultInitialFileSize).1 DefaultInitialFileSize 0) ∧
    (∀ k, k ≠ name →
      assocGet (dirCreate d fs now name).1.children k = assocGet d.children k) := by
  refine ⟨rfl, ?_, ?_⟩
  · show assocGet (assocSet d.children name _) name = _
    rw [assocGet_set_self]
    simp [nextInode, allocateSpace_inodeCount]
  · intro k hk
    show assocGet (assocSet d.children name _) k = _
    rw [assocGet_set_other _ _ _ _ hk]

/-- Witness for the amended C6: creating `"b"` next to an existing `"a"`. -/
theorem dirCreate_spec_witness :
    (dirCreate ⟨[("a", Node.file 7 9999 4096 5)], 0⟩ ⟨1, 0, [⟨0, 65536⟩]⟩ 77 "b").1.modTime
      = 77 ∧
    assocGet (dirCreate ⟨[("a", Node.file 7 9999 4096 5)], 0⟩
        ⟨1, 0, [⟨0, 65536⟩]⟩ 77 "b").1.children "a" = some (Node.file 7 9999 4096 5) :=
  have h := dirCreate_spec ⟨[("a", Node.file 7 9999 4096 5)], 0⟩
    ⟨1, 0, [⟨0, 65536⟩]⟩ 77 "b"
  ⟨h.1, by rw [h.2.2 "a" (by decide)]; rfl⟩

/-- C7 counterexample: removing the name of a subdirectory succeeds — the
entry is deleted — instead of failing with EISDIR as the claim states;
and the operation takes no allocator state at all, so no extent is
returned to the free list. -/
theorem dirRemove_counterexample :
    dirRemove ⟨[("d", Node.dir 5 [])], 0⟩ 1 "d" = Except.ok ⟨[], 1⟩ := by
  rfl

/-- C7 amended: `Remove` fails with ENOENT when the name is absent; when
the name is present — whether it refers to a file or a directory — it
removes the entry, leaves all other entries unchanged, and updates the
parent's modification time; it never frees the file's backing extent (the
allocator state is not touched). -/
theorem dirRemove_spec (d : Dir) (now : Nat) (name : String) :
    (assocGet d.children name = none →
      dirRemove d now name = Except.error Errno.eNOENT) ∧
    (∀ n, assocGet d.children name = some n →
      dirRemove d now name = Except.ok ⟨assocDel d.children name, now⟩ ∧
      assocGet (assocDel d.children name) name = none ∧
      ∀ k, k ≠ name → assocGet (assocDel d.children name) k = assocGet d.children k) := by
  constructor
  · intro h
    simp [dirRemove, h]
  · intro n h
    refine ⟨by simp [dirRemove, h], assocGet_del_self d.children name, ?_⟩
    intro k hk
    exact assocGet_del_other d.children name k hk

/-- Witness for the amended C7: removing the file `"x"` from a directory
that also contains `"y"` keeps `"y"` and drops `"x"`. -/
theorem dirRemove_spec_witness :
    dirRemove ⟨[("x", Node.file 2 0 4096 0), ("y", Node.file 3 0 4096 0)], 0⟩ 9 "x" =
      Except.ok ⟨[("y", Node.file 3 0 4096 0)], 9⟩ ∧
    assocGet (assocDel [("x", Node.file 2 0 4096 0), ("y", Node.file 3 0 4096 0)] "x") "y" =
      some (Node.file 3 0 4096 0) :=
  have h := (dirRemove_spec ⟨[("x", Node.file 2 0 4096 0), ("y", Node.file 3 0 4096 0)], 0⟩
      9 "x").2 (Node.file 2 0 4096 0) rfl
  ⟨h.1, by rw [h.2.2 "y" (by decide)]; rfl⟩

/-- One allocator operation of a client run: an allocation request, or a
free of the `idx`-th extent previously handed out by an allocation (the
only frees the engine performs). -/
inductive AllocOp where
  | alloc (size : Nat)
  | free (idx : Nat)

/-- The state of a run against the allocator: the filesystem state, the
log of extents handed out so far (offset and requested size, in order),
and the offsets returned so far. -/
structure RunSt where
  fs : Filesystem
  handed : List (Nat × Nat)
  rets : List Nat

/-- Execute one operation.  A `free` whose index does not refer to a
previously handed-out extent does nothing (such frees never occur in the
engine). -/
def runOp (r : RunSt) : AllocOp → RunSt
  | AllocOp.alloc size =>
    { fs := (allocateSpace r.fs size).2,
      handed := r.handed ++ [((allocateSpace r.fs size).1, size)],
      rets := r.rets ++ [(allocateSpace r.fs size).1] }
  | AllocOp.free idx =>
    match r.handed[idx]? with
    | some p => { r with fs := freeSpace r.fs p.1 p.2 }
    | none => r

/-- Execute a sequence of allocator operations. -/
def runOps (ops : List AllocOp) (r : RunSt) : RunSt :=
  ops.foldl runOp r

/-- The run starting from the state `NewFilesystem` builds. -/
def initRun : RunSt :=
  { fs := newFilesystem, handed := [], rets := [] }

/-- The invariant of a free-list entry: offset and size are 4 KiB
multiples and the offset lies past the metadata reservation. -/
def entOk (sp : FreeSpace) : Prop :=
  sp.offset % BlockAlignmentSize = 0 ∧ sp.size % BlockAlignmentSize = 0 ∧
  MetadataReservationSize ≤ sp.offset

/-- The run invariant: the watermark, every free-list entry, every
handed-out offset and every returned offset are 4 KiB aligned and lie at
or past the metadata reservation. -/
def allocInv (r : RunSt) : Prop :=
  r.fs.nextOffset % BlockAlignmentSize = 0 ∧
  MetadataReservationSize ≤ r.fs.nextOffset ∧
  (∀ sp ∈ r.fs.freeSpaces, entOk sp) ∧
  (∀ p ∈ r.handed, p.1 % BlockAlignmentSize = 0 ∧ MetadataReservationSize ≤ p.1) ∧
  (∀ o ∈ r.rets, o % BlockAlignmentSize = 0 ∧ MetadataReservationSize ≤ o)

section RunInvariant

theorem allocScan_ok (a : Nat) (ha : a % BlockAlignmentSize = 0) :
    ∀ (l : List FreeSpace), (∀ sp ∈ l, entOk sp) →
    ∀ o l2, allocScan a l = some (o, l2) →
      (o % BlockAlignmentSize = 0 ∧ MetadataReservationSize ≤ o) ∧
      ∀ sp ∈ l2, entOk sp := by
  intro l
  induction l with
  | nil => intro _ o l2 heq; exact absurd heq (by simp [allocScan])
  | cons sp rest ih =>
    intro hl o l2 heq
    have hsp : entOk sp := hl sp (List.mem_cons_self sp rest)
    have hrest : ∀ q ∈ rest, entOk q := fun q hq => hl q (List.mem_cons_of_mem sp hq)
    by_cases h1 : a ≤ sp.size
    · by_cases h2 : a < sp.size
      · rw [allocScan, if_pos h1, if_pos h2] at heq
        obtain ⟨rfl, rfl⟩ : sp.offset = o ∧
            ({ offset := sp.offset + a, size := sp.size - a } : FreeSpace) :: rest = l2 := by
          have := Option.some.inj heq
          exact ⟨congrArg Prod.fst this, congrArg Prod.snd this⟩
        refine ⟨⟨?_, hsp.2.2⟩, ?_⟩
        · exact hsp.1
        · intro q hq
          rcases List.mem_cons.mp hq with hq1 | hq2
          · subst hq1
            obtain ⟨e1, e2, e3⟩ := hsp
            refine ⟨?_, ?_, ?_⟩ <;>
              simp only [BlockAlignmentSize, MetadataReservationSize] at * <;> omega
          · exact hrest q hq2
      · rw [allocScan, if_pos h1, if_neg h2] at heq
        obtain ⟨rfl, rfl⟩ : sp.offset = o ∧ rest = l2 := by
          have := Option.some.inj heq
          exact ⟨congrArg Prod.fst this, congrArg Prod.snd this⟩
        exact ⟨⟨hsp.1, hsp.2.2⟩, hrest⟩
    · rw [allocScan, if_neg h1] at heq
      cases h3 : allocScan a rest with
      | none => rw [h3] at heq; exact absurd heq (by simp)
      | some p =>
        obtain ⟨o2, rest2⟩ := p
        rw [h3] at heq
        obtain ⟨rfl, rfl⟩ : o2 = o ∧ sp :: rest2 = l2 := by
          have := Option.some.inj heq
          exact ⟨congrArg Prod.fst this, congrArg Prod.snd this⟩
        obtain ⟨ho, hl2⟩ := ih hrest o2 rest2 h3
        refine ⟨ho, ?_⟩
        intro q hq
        rcases List.mem_cons.mp hq with hq1 | hq2
        · subst hq1; exact hsp
        · exact hl2 q hq2

theorem allocateSpace_ok (fs : Filesystem) (s : Nat)
    (h1 : fs.nextOffset % BlockAlignmentSize = 0)
    (h2 : MetadataReservationSize ≤ fs.nextOffset)
    (h3 : ∀ sp ∈ fs.freeSpaces, entOk sp) :
    ((allocateSpace fs s).1 % BlockAlignmentSize = 0 ∧
      MetadataReservationSize ≤ (allocateSpace fs s).1) ∧
    (allocateSpace fs s).2.nextOffset % BlockAlignmentSize = 0 ∧
    MetadataReservationSize ≤ (allocateSpace fs s).2.nextOffset ∧
    ∀ sp ∈ (allocateSpace fs s).2.freeSpaces, entOk sp := by
  unfold allocateSpace
  cases h : allocScan (alignUp s) fs.freeSpaces with
  | none =>
    have hm := alignUp_mod s
    simp only [h]
    refine ⟨⟨h1, h2⟩, ?_, ?_, h3⟩
    · simp only [BlockAlignmentSize] at *
      omega
    · omega
  | some p =>
    obtain ⟨o, nf⟩ := p
    have hok := allocScan_ok (alignUp s) (alignUp_mod s) fs.freeSpaces h3 o nf h
    simp only [h]
    exact ⟨hok.1, h1, h2, hok.2⟩

theorem freeSpace_ok (fs : Filesystem) (offset s : Nat)
    (h3 : ∀ sp ∈ fs.freeSpaces, entOk sp)
    (ho : offset % BlockAlignmentSize = 0 ∧ MetadataReservationSize ≤ offset) :
    (freeSpace fs offset s).nextOffset = fs.nextOffset ∧
    ∀ sp ∈ (freeSpace fs offset s).freeSpaces, entOk sp := by
  by_cases hz : s = 0
  · have he : freeSpace fs offset s = fs := by simp [freeSpace, hz]
    rw [he]
    exact ⟨rfl, h3⟩
  · have he : freeSpace fs offset s =
        { fs with freeSpaces :=
            fs.freeSpaces ++ [{ offset := offset, size := alignUp s }] } := by
      simp [freeSpace, hz]
    rw [he]
    refine ⟨rfl, ?_⟩
    intro sp hsp
    rcases List.mem_append.mp hsp with hi | hlast
    · exact h3 sp hi
    · have : sp = { offset := offset, size := alignUp s } := List.mem_singleton.mp hlast
      subst this
      exact ⟨ho.1, alignUp_mod s, ho.2⟩

theorem runOp_inv (r : RunSt) (op : AllocOp) (h : allocInv r) : allocInv (runOp r op) := by
  obtain ⟨h1, h2, h3, h4, h5⟩ := h
  cases op with
  | alloc s =>
    have hok := allocateSpace_ok r.fs s h1 h2 h3
    refine ⟨hok.2.1, hok.2.2.1, hok.2.2.2, ?_, ?_⟩
    · intro p hp
      rcases List.mem_append.mp hp with hi | hlast
      · exact h4 p hi
      · have : p = ((allocateSpace r.fs s).1, s) := List.mem_singleton.mp hlast
        subst this
        exact hok.1
    · intro o hoo
      rcases List.mem_append.mp hoo with hi | hlast
      · exact h5 o hi
      · have : o = (allocateSpace r.fs s).1 := List.mem_singleton.mp hlast
        subst this
        exact hok.1
  | free idx =>
    cases hidx : r.handed[idx]? with
    | none =>
      have he : runOp r (AllocOp.free idx) = r := by simp [runOp, hidx]
      rw [he]
      exact ⟨h1, h2, h3, h4, h5⟩
    | some p =>
      have he : runOp r (AllocOp.free idx) =
          { fs := freeSpace r.fs p.1 p.2, handed := r.handed, rets := r.rets } := by
        simp [runOp, hidx]
      have hmem : p ∈ r.handed := List.getElem?_mem hidx
      have hgood := h4 p hmem
      have hfs := freeSpace_ok r.fs p.1 p.2 h3 hgood
      rw [he]
      refine ⟨?_, ?_, hfs.2, h4, h5⟩
      · rw [hfs.1]
        exact h1
      · rw [hfs.1]
        exact h2

theorem runOps_inv (ops : List AllocOp) (r : RunSt) (h : allocInv r) :
    allocInv (runOps ops r) := by
  induction ops generalizing r with
  | nil => exact h
  | cons op rest ih => exact ih (runOp r op) (runOp_inv r op h)

theorem initRun_inv : allocInv initRun := by
  refine ⟨by decide, by decide, ?_, ?_, ?_⟩ <;>
    exact fun x hx => absurd hx (by simp [initRun, newFilesystem])

end RunInvariant

/-- C8: over every sequence of allocations and frees of previously
handed-out extents, starting from the initial filesystem state, every
offset the allocator returns and every extent the free list tracks
(length and offset alike) is a multiple of 4096. -/
theorem allocator_alignment (ops : List AllocOp) :
    (∀ o ∈ (runOps ops initRun).rets, o % BlockAlignmentSize = 0) ∧
    (∀ sp ∈ (runOps ops initRun).fs.freeSpaces,
      sp.size % BlockAlignmentSize = 0 ∧ sp.offset % BlockAlignmentSize = 0) := by
  have h := runOps_inv ops initRun initRun_inv
  obtain ⟨h1, h2, h3, h4, h5⟩ := h
  constructor
  · intro o ho
    exact (h5 o ho).1
  · intro sp hsp
    obtain ⟨e1, e2, e3⟩ := h3 sp hsp
    exact ⟨e2, e1⟩

/-- Witness for C8: a single allocation of 10 bytes returns the
(4096-aligned) offset 1048576. -/
theorem allocator_alignment_witness :
    1048576 ∈ (runOps [AllocOp.alloc 10] initRun).rets ∧
    1048576 % BlockAlignmentSize = 0 :=
  ⟨by decide, (allocator_alignment [AllocOp.alloc 10]).1 1048576 (by decide)⟩

/-- C9: over every sequence of allocations and frees of previously
handed-out extents, starting from the initial filesystem state, every
offset the allocator returns lies at or past the 1 MiB metadata
reservation, so no allocation overlaps the reserved region. -/
theorem allocator_reservation (ops : List AllocOp) :
    ∀ o ∈ (runOps ops initRun).rets, MetadataReservationSize ≤ o := by
  have h := runOps_inv ops initRun initRun_inv
  intro o ho
  exact (h.2.2.2.2 o ho).2

/-- Witness for C9: a run with an allocation, a free of it, and a
reallocation that is served from the free list still returns offsets at
or past the reservation. -/
theorem allocator_reservation_witness :
    1048576 ∈ (runOps [AllocOp.alloc 100, AllocOp.free 0, AllocOp.alloc 50] initRun).rets ∧
    MetadataReservationSize ≤ 1048576 :=
  ⟨by decide,
    allocator_reservation [AllocOp.alloc 100, AllocOp.free 0, AllocOp.alloc 50]
      1048576 (by decide)⟩

end AethelFS
